import Mathlib

/-!
Shallow embedding of the core of the `deckocr` application, together with
proofs about the claims of its specification.

Conventions of the embedding:
* Rust `String` values are modelled as `List Char`; the token `position` and
  `length` offsets are character offsets into the paragraph string, matching
  the data model of the specification (§3).
* Fallible code is modelled with `Option`/`Except`; a Rust `panic!`
  (including `expect`/`unwrap` on a missing value and an out-of-range index)
  is modelled by a distinguished `none`/constructor, noted at each use site.
* Hash maps (`DashMap`, `HashMap`) are modelled as association lists with
  first-match lookup; an insertion conses the new binding in front, which
  gives the same lookup semantics as an overwriting insert.
-/

namespace Deckocr

/-! ## Data model of `service/dictionary.rs` (used by the token aligner) -/

/-- Fragment of text, optionally with its associated furigana
(`TextFragment` in `service/dictionary.rs`). -/
structure TextFragment where
  text : List Char
  ruby : Option (List Char)
deriving DecidableEq

/-- Ordered fragments making up one displayable unit
(`TextWithRuby` in `service/dictionary.rs`). -/
abbrev TextWithRuby := List TextFragment

/-- Dictionary definition attached to a word (`Definition` in
`service/dictionary.rs`; this revision stores the card-state name inline). -/
structure Definition where
  spelling : List Char
  reading : List Char
  frequency : Option Nat
  meanings : List (List Char)
  card_state : List Char
deriving DecidableEq

/-- Word of a paragraph (`Word` in `service/dictionary.rs`). -/
structure Word where
  text : TextWithRuby
  definition : Option Definition
deriving DecidableEq

/-- Token of the jpdb parse response (the local `struct Token` inside
`JpdbDictionary::parse`). -/
structure Token where
  vocab_index : Nat
  position : Nat
  length : Nat
  furigana : Option (List TextFragment)
deriving DecidableEq

/-- Vocabulary entry of the jpdb parse response (the local
`struct Vocabulary` inside `JpdbDictionary::parse`; the unused `vid`/`sid`
fields are omitted). -/
structure Vocabulary where
  spelling : List Char
  reading : List Char
  frequency : Option Nat
  meanings : List (List Char)
  card_state : Option (List Char)
deriving DecidableEq

/-! ## The token aligner (`JpdbDictionary::parse`, alignment loop) -/

/-- Character-level substring `text[a..b]` of a paragraph string. -/
def slice (s : List Char) (a b : Nat) : List Char :=
  (s.drop a).take (b - a)

/-- Text of the word emitted for one token: its furigana when present,
otherwise a single plain fragment holding the token's substring
(`token.furigana.unwrap_or_else(...)` in `JpdbDictionary::parse`). -/
def tokenText (text : List Char) (tok : Token) : TextWithRuby :=
  tok.furigana.getD [⟨slice text tok.position (tok.position + tok.length), none⟩]

/-- Definition built for one token from `vocab[token.vocab_index]`; `none`
models the panic of the out-of-range index in `JpdbDictionary::parse`. -/
def tokenDefinition (vocab : List Vocabulary) (tok : Token) : Option Definition :=
  (vocab.get? tok.vocab_index).map fun v =>
    { spelling := v.spelling
      reading := v.reading
      frequency := v.frequency
      meanings := v.meanings
      card_state := v.card_state.getD ("not in deck".data) }

/-- Alignment loop of `JpdbDictionary::parse` over the tokens of one
paragraph, carrying the cursor: emits a definition-less gap word whenever the
next token starts strictly after the cursor, then the token's word, then
advances the cursor to the end of the token.  Returns `none` when a token's
vocabulary index is out of range (a panic in the source). -/
def align_go (text : List Char) (vocab : List Vocabulary) :
    Nat → List Token → Option (List Word)
  | _, [] => some []
  | cursor, tok :: rest =>
    (tokenDefinition vocab tok).bind fun d =>
      (align_go text vocab (tok.position + tok.length) rest).bind fun ws =>
        some ((if cursor < tok.position then
                [(⟨[⟨slice text cursor tok.position, none⟩], none⟩ : Word)]
              else []) ++ (⟨tokenText text tok, some d⟩ : Word) :: ws)

/-- Alignment of one paragraph (`JpdbDictionary::parse`): with an empty token
list a single definition-less word holding the whole string is emitted,
otherwise the alignment loop runs from cursor 0.  Trailing text after the
last token is not emitted by the source. -/
def align_paragraph (text : List Char) (tokens : List Token)
    (vocab : List Vocabulary) : Option (List Word) :=
  if tokens.isEmpty then some [⟨[⟨text, none⟩], none⟩]
  else align_go text vocab 0 tokens

/-- Paragraph loop of `JpdbDictionary::parse` (`for (text, tokens) in
text.iter().zip(tokens)`), aligning each paragraph in turn. -/
def align_batch (vocab : List Vocabulary) :
    List (List Char × List Token) → Option (List (List Word))
  | [] => some []
  | p :: rest =>
    (align_paragraph p.1 p.2 vocab).bind fun par =>
      (align_batch vocab rest).bind fun pars =>
        some (par :: pars)

/-- Whole-batch alignment of `JpdbDictionary::parse`: paragraphs are zipped
with their token lists, aligned, and — when the
`filter_paragraphs_with_no_definitions` option is set — paragraphs with no
definition-bearing word are dropped (`words.retain(...)`). -/
def parse_paragraphs (texts : List (List Char)) (tokenLists : List (List Token))
    (vocab : List Vocabulary) (filterNoDefs : Bool) : Option (List (List Word)) :=
  (align_batch vocab (texts.zip tokenLists)).bind fun paragraphs =>
    some (if filterNoDefs then
            paragraphs.filter (fun par => par.any fun w => w.definition.isSome)
          else paragraphs)

/-- Concatenation of the `.text` fields of the fragments of one word. -/
def wordText (w : Word) : List Char :=
  (w.text.map TextFragment.text).flatten

/-- Concatenation of the `.text` fields of all fragments emitted for a
paragraph, in order. -/
def concatText (ws : List Word) : List Char :=
  (ws.map wordText).flatten

/-- Cursor position after processing a token list, i.e. the end
`position + length` of the last token (or the starting cursor if none). -/
def endCursor : Nat → List Token → Nat
  | c, [] => c
  | _, tok :: rest => endCursor (tok.position + tok.length) rest

/-- Token list sorted by position and non-overlapping, starting no earlier
than the given cursor. -/
def tokensChained : Nat → List Token → Prop
  | _, [] => True
  | c, tok :: rest => c ≤ tok.position ∧ tokensChained (tok.position + tok.length) rest

/-- Token offsets lie within the paragraph string. -/
def tokensWithin (text : List Char) (toks : List Token) : Prop :=
  ∀ tok ∈ toks, tok.position + tok.length ≤ text.length

/-- Furigana faithfulness: whenever a token carries furigana, the fragments'
text concatenates to the token's substring of the paragraph. -/
def furiganaFaithful (text : List Char) (toks : List Token) : Prop :=
  ∀ tok ∈ toks, ∀ f, tok.furigana = some f →
    (f.map TextFragment.text).flatten = slice text tok.position (tok.position + tok.length)

/-- Vocabulary indices of all tokens are in range. -/
def vocabInRange (vocab : List Vocabulary) (toks : List Token) : Prop :=
  ∀ tok ∈ toks, tok.vocab_index < vocab.length

/-! ## Lemmas about the aligner -/

lemma concatText_nil : concatText [] = [] := rfl

lemma concatText_cons (w : Word) (ws : List Word) :
    concatText (w :: ws) = wordText w ++ concatText ws := by
  simp [concatText]

lemma concatText_append (a b : List Word) :
    concatText (a ++ b) = concatText a ++ concatText b := by
  simp [concatText]

lemma take_append_slice (s : List Char) {a b : Nat} (h : a ≤ b) :
    s.take a ++ slice s a b = s.take b := by
  have h2 : a + (b - a) = b := Nat.add_sub_cancel' h
  have h3 := List.take_add s a (b - a)
  rw [h2] at h3
  simp only [slice]
  rw [h3]

lemma align_go_cons {text : List Char} {vocab : List Vocabulary} {c : Nat}
    {tok : Token} {rest : List Token} {d : Definition} {ws : List Word}
    (h1 : tokenDefinition vocab tok = some d)
    (h2 : align_go text vocab (tok.position + tok.length) rest = some ws) :
    align_go text vocab c (tok :: rest) =
      some ((if c < tok.position then
              [(⟨[⟨slice text c tok.position, none⟩], none⟩ : Word)]
            else []) ++ (⟨tokenText text tok, some d⟩ : Word) :: ws) := by
  simp [align_go, h1, h2]

/-- Central invariant of the alignment loop: starting from cursor `c`, on
well-formed tokens the loop succeeds and the emitted text extends the prefix
`text.take c` exactly to the prefix ending at the last token's end. -/
lemma align_go_spec (text : List Char) (vocab : List Vocabulary)
    (toks : List Token) :
    ∀ c : Nat, tokensChained c toks → furiganaFaithful text toks →
      vocabInRange vocab toks →
      ∃ ws, align_go text vocab c toks = some ws ∧
        text.take c ++ concatText ws = text.take (endCursor c toks) := by
  induction toks with
  | nil =>
    intro c _ _ _
    exact ⟨[], rfl, by simp [concatText, endCursor]⟩
  | cons tok rest ih =>
    intro c hchain hfuri hvocab
    obtain ⟨hc, hchain'⟩ := hchain
    have hvi : tok.vocab_index < vocab.length := hvocab tok (by simp)
    have hv : vocab.get? tok.vocab_index = some (vocab.get ⟨tok.vocab_index, hvi⟩) :=
      List.get?_eq_get hvi
    set v := vocab.get ⟨tok.vocab_index, hvi⟩ with hvdef
    have hd : tokenDefinition vocab tok = some
        { spelling := v.spelling, reading := v.reading, frequency := v.frequency,
          meanings := v.meanings,
          card_state := v.card_state.getD ("not in deck".data) } := by
      simp only [tokenDefinition, hv, Option.map_some']
    obtain ⟨ws', hws', hcat'⟩ := ih (tok.position + tok.length) hchain'
      (fun t ht f hf => hfuri t (List.mem_cons_of_mem _ ht) f hf)
      (fun t ht => hvocab t (List.mem_cons_of_mem _ ht))
    refine ⟨_, align_go_cons hd hws', ?_⟩
    have hgap : text.take c ++ concatText (if c < tok.position then
        [(⟨[⟨slice text c tok.position, none⟩], none⟩ : Word)] else []) =
        text.take tok.position := by
      by_cases hlt : c < tok.position
      · simp only [hlt, if_pos]
        rw [concatText_cons, concatText_nil]
        have : wordText (⟨[⟨slice text c tok.position, none⟩], none⟩ : Word) =
            slice text c tok.position := by simp [wordText]
        rw [this, List.append_nil, take_append_slice text (Nat.le_of_lt hlt)]
      · have : c = tok.position := Nat.le_antisymm hc (Nat.le_of_not_lt hlt)
        simp [hlt, concatText_nil, this]
    have htok : ∀ od : Option Definition, wordText (⟨tokenText text tok, od⟩ : Word) =
        slice text tok.position (tok.position + tok.length) := by
      intro od
      cases hf : tok.furigana with
      | none => simp [wordText, tokenText, hf]
      | some f =>
        have := hfuri tok (by simp) f hf
        simp [wordText, tokenText, hf, this]
    rw [concatText_append, concatText_cons, ← List.append_assoc, hgap,
      ← List.append_assoc, htok _,
      take_append_slice text (Nat.le_add_right tok.position tok.length)]
    show text.take (tok.position + tok.length) ++ concatText ws' =
      text.take (endCursor c (tok :: rest))
    rw [show endCursor c (tok :: rest) = endCursor (tok.position + tok.length) rest from rfl]
    exact hcat'

lemma align_paragraph_ne_nil {text : List Char} {toks : List Token}
    {vocab : List Vocabulary} {ws : List Word}
    (h : align_paragraph text toks vocab = some ws) : ws ≠ [] := by
  unfold align_paragraph at h
  by_cases he : toks.isEmpty
  · rw [if_pos he] at h
    cases h
    simp
  · rw [if_neg he] at h
    cases toks with
    | nil => simp at he
    | cons tok rest =>
      simp only [align_go, Option.bind_eq_some, Option.pure_def,
        Option.some.injEq] at h
      obtain ⟨d, _, ws', _, rfl⟩ := h
      intro hnil
      rcases List.append_eq_nil.mp hnil with ⟨_, h2⟩
      simp at h2

lemma align_batch_ne_nil {vocab : List Vocabulary} :
    ∀ {ps : List (List Char × List Token)} {pss : List (List Word)},
      align_batch vocab ps = some pss → ∀ par ∈ pss, par ≠ [] := by
  intro ps
  induction ps with
  | nil =>
    intro pss h par hmem
    cases h
    simp at hmem
  | cons p rest ih =>
    intro pss h par hmem
    simp only [align_batch, Option.bind_eq_some, Option.pure_def,
      Option.some.injEq] at h
    obtain ⟨par0, hpar0, pars, hpars, rfl⟩ := h
    rcases List.mem_cons.mp hmem with rfl | hmem'
    · exact align_paragraph_ne_nil hpar0
    · exact ih hpars par hmem'

/-! ## Theorems for claims C1, C2 and C9 -/

/-- Claim C2, as stated, is false on the code: a position-sorted,
non-overlapping, in-range token list whose single token carries furigana
whose text differs from the token's substring makes the emitted
concatenation differ from the prefix of the paragraph ending at the last
token's end. -/
theorem C2_counterexample :
    tokensChained 0 [(⟨0, 0, 1, some [⟨"XY".data, none⟩]⟩ : Token)] ∧
    tokensWithin ("ab".data) [(⟨0, 0, 1, some [⟨"XY".data, none⟩]⟩ : Token)] ∧
    align_paragraph ("ab".data) [(⟨0, 0, 1, some [⟨"XY".data, none⟩]⟩ : Token)]
        [(⟨"a".data, "a".data, none, [], none⟩ : Vocabulary)] =
      some [⟨[⟨"XY".data, none⟩],
        some ⟨"a".data, "a".data, none, [], "not in deck".data⟩⟩] ∧
    concatText [⟨[⟨"XY".data, none⟩],
        some ⟨"a".data, "a".data, none, [], "not in deck".data⟩⟩] ≠
      ("ab".data).take
        (endCursor ("ab".data).length [(⟨0, 0, 1, some [⟨"XY".data, none⟩]⟩ : Token)]) := by
  refine ⟨?_, ?_, ?_, ?_⟩
  · simp [tokensChained]
  · intro tok htok
    simp only [List.mem_singleton] at htok
    subst htok
    decide
  · rfl
  · decide

/-- Claim C2 (amended): for every paragraph string and every non-overlapping,
position-sorted token list whose offsets lie within the string, whose
vocabulary indices are in range, and whose furigana (when present)
concatenates to the token's substring, the concatenation of the `.text`
fields of all emitted Word fragments, in order, reconstructs the prefix of
the original string ending at the last token's end, gaps included verbatim;
with zero tokens exactly one definition-less Word equal to the whole string
is emitted. -/
theorem C2_alignment_completeness (text : List Char) (tokens : List Token)
    (vocab : List Vocabulary)
    (hchain : tokensChained 0 tokens) (hwithin : tokensWithin text tokens)
    (hfuri : furiganaFaithful text tokens) (hvocab : vocabInRange vocab tokens) :
    ∃ ws, align_paragraph text tokens vocab = some ws ∧
      concatText ws = text.take (endCursor text.length tokens) ∧
      (tokens = [] → ws = [⟨[⟨text, none⟩], none⟩]) := by
  cases tokens with
  | nil =>
    refine ⟨[⟨[⟨text, none⟩], none⟩], rfl, ?_, fun _ => rfl⟩
    simp [concatText, wordText, endCursor]
  | cons tok rest =>
    obtain ⟨ws, hws, hcat⟩ := align_go_spec text vocab (tok :: rest) 0 hchain hfuri hvocab
    refine ⟨ws, ?_, ?_, by simp⟩
    · simpa [align_paragraph] using hws
    · have h0 : text.take 0 ++ concatText ws = text.take (endCursor 0 (tok :: rest)) := hcat
      rw [List.take_zero, List.nil_append] at h0
      rw [h0]
      rfl

/-- Witness for the amended claim C2 at a concrete input. -/
theorem C2_witness :
    ∃ ws, align_paragraph ("ab".data) [(⟨0, 0, 1, none⟩ : Token)]
        [(⟨"a".data, "a".data, none, [], none⟩ : Vocabulary)] = some ws ∧
      concatText ws =
        ("ab".data).take (endCursor ("ab".data).length [(⟨0, 0, 1, none⟩ : Token)]) ∧
      ([(⟨0, 0, 1, none⟩ : Token)] = [] → ws = [⟨[⟨"ab".data, none⟩], none⟩]) :=
  C2_alignment_completeness ("ab".data) [⟨0, 0, 1, none⟩]
    [⟨"a".data, "a".data, none, [], none⟩]
    (by simp [tokensChained])
    (by intro tok htok; simp only [List.mem_singleton] at htok; subst htok; decide)
    (by intro tok htok f hf; simp only [List.mem_singleton] at htok; subst htok; simp at hf)
    (by intro tok htok; simp only [List.mem_singleton] at htok; subst htok; decide)

/-- Claim C1: evaluation of the aligner at the spec's end-to-end example.
The code emits only the three Words 私, は and 猫 — the trailing
untokenized text が好き after the last token is dropped, so the
concatenation of the emitted fragments is 私は猫, not the original
string. -/
theorem C1_example_drops_trailing_text :
    align_paragraph ("私は猫が好き".data)
        [(⟨0, 0, 1, none⟩ : Token), (⟨1, 2, 1, none⟩ : Token)]
        [(⟨"私".data, "わたし".data, none, [], none⟩ : Vocabulary),
         (⟨"猫".data, "ねこ".data, none, [], none⟩ : Vocabulary)] =
      some [⟨[⟨"私".data, none⟩],
              some ⟨"私".data, "わたし".data, none, [], "not in deck".data⟩⟩,
            ⟨[⟨"は".data, none⟩], none⟩,
            ⟨[⟨"猫".data, none⟩],
              some ⟨"猫".data, "ねこ".data, none, [], "not in deck".data⟩⟩] ∧
    concatText [⟨[⟨"私".data, none⟩],
              some ⟨"私".data, "わたし".data, none, [], "not in deck".data⟩⟩,
            ⟨[⟨"は".data, none⟩], none⟩,
            ⟨[⟨"猫".data, none⟩],
              some ⟨"猫".data, "ねこ".data, none, [], "not in deck".data⟩⟩] =
      "私は猫".data ∧
    ("私は猫".data : List Char) ≠ "私は猫が好き".data := by
  refine ⟨by decide, by decide, by decide⟩

/-- Claim C9: every paragraph emitted by `JpdbDictionary::parse` is
non-empty — a paragraph with zero tokens yields exactly one Word, one with
tokens yields at least one Word per token, and the optional paragraph filter
only removes whole paragraphs. -/
theorem C9_no_empty_paragraph (texts : List (List Char))
    (tokenLists : List (List Token)) (vocab : List Vocabulary)
    (filterNoDefs : Bool) (pss : List (List Word))
    (h : parse_paragraphs texts tokenLists vocab filterNoDefs = some pss) :
    ∀ par ∈ pss, par ≠ [] := by
  simp only [parse_paragraphs, Option.bind_eq_some, Option.pure_def,
    Option.some.injEq] at h
  obtain ⟨paragraphs, hp, rfl⟩ := h
  intro par hmem
  cases filterNoDefs with
  | false =>
    rw [if_neg (by simp)] at hmem
    exact align_batch_ne_nil hp par hmem
  | true =>
    rw [if_pos rfl] at hmem
    exact align_batch_ne_nil hp par (List.mem_of_mem_filter hmem)

/-- Witness for claim C9 at a concrete input. -/
theorem C9_witness : ([⟨[⟨"a".data, none⟩], none⟩] : List Word) ≠ [] :=
  C9_no_empty_paragraph ["a".data] [[]] [] false [[⟨[⟨"a".data, none⟩], none⟩]]
    rfl [⟨[⟨"a".data, none⟩], none⟩] (by simp)

/-! ## ServiceJob (`services.rs`) -/

/-- Outcome of a worker thread's closure: either the produced value, or a
panic raised inside the closure. -/
inductive WorkerOutcome (T : Type) where
  | value (t : T)
  | panicked
deriving DecidableEq

/-- State of the underlying `JoinHandle` as observable by the caller. -/
inductive HandleState (T : Type) where
  | running
  | finished (outcome : WorkerOutcome T)
deriving DecidableEq

/-- The `ServiceJob<T>` of `services.rs`: an optional join handle; the handle
is taken out of the option once the result has been consumed. -/
structure ServiceJob (T : Type) where
  handle : Option (HandleState T)
deriving DecidableEq

/-- What the caller of `try_wait`/`wait` observes.  `callerPanic` models the
`.unwrap()` applied to `JoinHandle::join`'s result re-raising the worker's
panic on the calling thread. -/
inductive WaitOutcome (T : Type) where
  | alreadyFinishedErr
  | pending
  | ok (t : T)
  | callerPanic
deriving DecidableEq

/-- The `join()` call followed by `.unwrap()` in `try_wait`/`wait`: a
finished worker's value is returned, a panicked worker's join error is
unwrapped, which re-raises the panic on the caller. -/
def joinUnwrap {T : Type} : WorkerOutcome T → WaitOutcome T
  | .value t => .ok t
  | .panicked => .callerPanic

/-- `ServiceJob::try_wait`: `Err` when the handle was already taken,
`Ok(None)` while the worker runs, and otherwise
`Ok(Some(self.handle.take().unwrap().join().unwrap()))`. -/
def ServiceJob.try_wait {T : Type} (j : ServiceJob T) : WaitOutcome T × ServiceJob T :=
  match j.handle with
  | none => (.alreadyFinishedErr, j)
  | some (.finished outcome) => (joinUnwrap outcome, ⟨none⟩)
  | some .running => (.pending, j)

/-- `ServiceJob::wait`: `Err` when the handle was already taken, otherwise
`Ok(handle.join().unwrap())`; the blocking `join` returns the worker's final
outcome. -/
def ServiceJob.wait {T : Type} (j : ServiceJob T) (final : WorkerOutcome T) :
    WaitOutcome T :=
  match j.handle with
  | none => .alreadyFinishedErr
  | some _ => joinUnwrap final

/-- Claim C4: evaluation of `try_wait`/`wait` on a job whose worker closure
panicked.  The `join().unwrap()` in the source re-raises the worker's panic
on the polling thread instead of converting it into the job's error
result. -/
theorem C4_worker_panic_reaches_poller :
    (ServiceJob.try_wait (⟨some (.finished .panicked)⟩ : ServiceJob Unit)) =
      (.callerPanic, ⟨none⟩) ∧
    ServiceJob.wait (⟨some (.finished .panicked)⟩ : ServiceJob Unit) .panicked =
      .callerPanic ∧
    (WaitOutcome.callerPanic : WaitOutcome Unit) ≠ .alreadyFinishedErr ∧
    (WaitOutcome.callerPanic : WaitOutcome Unit) ≠ .pending ∧
    (WaitOutcome.callerPanic : WaitOutcome Unit) ≠ .ok () := by
  refine ⟨rfl, rfl, by decide, by decide, by decide⟩

end Deckocr

namespace Deckocr.App

/-!
## Data model of `word.rs` (the revision used by `services/srs` and `gui/`)
-/

/-- Fragment of text, optionally with its associated furigana
(`TextFragment` in `word.rs`). -/
structure TextFragment where
  text : String
  ruby : Option String
deriving DecidableEq

/-- Definition of a word (`Definition` in `word.rs`). -/
structure Definition where
  spelling : String
  reading : String
  frequency : Option Nat
  meanings : List String
  jpdb_vid_sid : Option (Nat × Nat)
deriving DecidableEq

/-- Word of a paragraph (`Word` in `word.rs`). -/
structure Word where
  text : List TextFragment
  definition : Option Definition
deriving DecidableEq

/-- Card state (`CardState` in `services/srs.rs`); the colour triple is
modelled as a triple of naturals. -/
structure CardState where
  name : String
  colour : Nat × Nat × Nat
  is_relevant : Bool
deriving DecidableEq

/-- Default `card_states` array of `JpdbSrsConfig::default`. -/
def defaultCardStates : List CardState :=
  [⟨"unparsed", (255, 255, 255), false⟩,
   ⟨"not in deck", (0, 200, 255), true⟩,
   ⟨"new", (170, 240, 255), true⟩,
   ⟨"learning", (170, 240, 255), true⟩,
   ⟨"due", (255, 75, 60), true⟩,
   ⟨"known", (125, 255, 125), false⟩,
   ⟨"blacklisted", (192, 192, 192), false⟩]

/-- State of a `JpdbSrs` service (`services/srs/jpdb_srs.rs`): the
configured card-state table and the two caches (`DashMap`s modelled as
association lists with first-match lookup). -/
structure JpdbSrs where
  card_states : List CardState
  card_states_with_ids : List ((Nat × Nat) × Nat)
  card_states_without_ids : List (String × Nat)
deriving DecidableEq

/-- `JpdbSrs::card_state`: a word with no definition gets the sentinel state
at index 0; a definition carrying jpdb ids is looked up in the with-ids
cache; a definition without ids is looked up in the without-ids cache under
its `reading` field (as in the source).  On a cache miss the sentinel state
at index 0 is returned.  The out-of-range table index (a panic in the
source) is modelled by `getD` with an inert default. -/
def card_state (s : JpdbSrs) (w : Word) : CardState :=
  match w.definition with
  | none => s.card_states.getD 0 ⟨"", (0, 0, 0), false⟩
  | some d =>
    match d.jpdb_vid_sid with
    | some ids =>
      match s.card_states_with_ids.lookup ids with
      | some idx => s.card_states.getD idx ⟨"", (0, 0, 0), false⟩
      | none => s.card_states.getD 0 ⟨"", (0, 0, 0), false⟩
    | none =>
      match s.card_states_without_ids.lookup d.reading with
      | some idx => s.card_states.getD idx ⟨"", (0, 0, 0), false⟩
      | none => s.card_states.getD 0 ⟨"", (0, 0, 0), false⟩

/-- Spellings of the definitions carrying no jpdb ids, as extracted by
`JpdbSrs::load_card_states`. -/
def words_without_ids (words : List Word) : List String :=
  ((words.filterMap fun w => w.definition).filter
    fun d => d.jpdb_vid_sid == none).map Definition.spelling

/-- Id pairs of the definitions carrying jpdb ids, as extracted by
`JpdbSrs::load_card_states`. -/
def words_with_ids (words : List Word) : List (Nat × Nat) :=
  (words.filterMap fun w => w.definition).filterMap fun d => d.jpdb_vid_sid

/-- One step of the without-ids response loop of `load_card_states`.  The
response item is `none` when `value.get(0)?` fails (a batch error),
`some (some name)` when the entry holds a card-state name string, and
`some none` when it holds a non-string (null) value.  A name found in the
configured table records the table index under the queried **spelling**; an
unknown name records nothing; a null value records index 1. -/
def record_state_without_id (card_states : List CardState)
    (m : List (String × Nat)) (resp : Option (Option String)) (spelling : String) :
    Option (List (String × Nat)) :=
  match resp with
  | none => none
  | some (some state_name) =>
    match card_states.findIdx? (fun state => state.name == state_name) with
    | some idx => some ((spelling, idx) :: m)
    | none => some m
  | some none => some ((spelling, 1) :: m)

/-- Without-ids loop of `load_card_states`: the response items are zipped
with the queried spellings and recorded in turn. -/
def load_without_ids (card_states : List CardState) :
    List (String × Nat) → List (Option (Option String) × String) →
      Option (List (String × Nat))
  | m, [] => some m
  | m, (resp, spelling) :: rest =>
    (record_state_without_id card_states m resp spelling).bind fun m' =>
      load_without_ids card_states m' rest

/-- One step of the with-ids response loop of `load_card_states`, recording
under the queried id pair (same recording logic as the without-ids loop). -/
def record_state_with_id (card_states : List CardState)
    (m : List ((Nat × Nat) × Nat)) (resp : Option (Option String))
    (ids : Nat × Nat) : Option (List ((Nat × Nat) × Nat)) :=
  match resp with
  | none => none
  | some (some state_name) =>
    match card_states.findIdx? (fun state => state.name == state_name) with
    | some idx => some ((ids, idx) :: m)
    | none => some m
  | some none => some ((ids, 1) :: m)

/-- With-ids loop of `load_card_states`. -/
def load_with_ids (card_states : List CardState) :
    List ((Nat × Nat) × Nat) → List (Option (Option String) × (Nat × Nat)) →
      Option (List ((Nat × Nat) × Nat))
  | m, [] => some m
  | m, (resp, ids) :: rest =>
    (record_state_with_id card_states m resp ids).bind fun m' =>
      load_with_ids card_states m' rest

/-- `JpdbSrs::load_card_states`, with the two remote responses abstracted as
lists of items: partitions the words' definitions by presence of jpdb ids,
zips each subset with its batched response, and records the resulting table
indices into the respective cache. -/
def load_card_states (s : JpdbSrs) (words : List Word)
    (respWithout : List (Option (Option String)))
    (respWith : List (Option (Option String))) : Option JpdbSrs :=
  let spellings := words_without_ids words
  let ids := words_with_ids words
  (if spellings.isEmpty then some s.card_states_without_ids
   else load_without_ids s.card_states s.card_states_without_ids
     (respWithout.zip spellings)).bind fun mWithout =>
  (if ids.isEmpty then some s.card_states_with_ids
   else load_with_ids s.card_states s.card_states_with_ids
     (respWith.zip ids)).bind fun mWith =>
  some { s with card_states_without_ids := mWithout, card_states_with_ids := mWith }

/-- Claim C3: evaluation at a word whose definition has no jpdb ids and
whose reading differs from its spelling.  `load_card_states` records the
card-state index under the spelling 私, but `card_state` looks the
definition up under its reading わたし, misses, and falls back to the
sentinel state at index 0 instead of the recorded state at index 5. -/
theorem C3_card_state_lookup_key_mismatch :
    load_card_states ⟨defaultCardStates, [], []⟩
        [⟨[], some ⟨"私", "わたし", none, [], none⟩⟩]
        [some (some ("known"))] [] =
      some ⟨defaultCardStates, [], [("私", 5)]⟩ ∧
    defaultCardStates.getD 5 ⟨"", (0, 0, 0), false⟩ =
      ⟨"known", (125, 255, 125), false⟩ ∧
    card_state ⟨defaultCardStates, [], [("私", 5)]⟩
        ⟨[], some ⟨"私", "わたし", none, [], none⟩⟩ =
      ⟨"unparsed", (255, 255, 255), false⟩ ∧
    (⟨"unparsed", (255, 255, 255), false⟩ : CardState) ≠
      ⟨"known", (125, 255, 125), false⟩ := by
  refine ⟨by decide, by decide, by decide, by decide⟩

/-- `JpdbSrs::add_to_deck`'s extraction of the spelling from the word's
definition; `none` models the panic of
`.expect("the user should not be able to add words with no definitions to a deck")`. -/
def add_to_deck_spelling (w : Word) : Option String :=
  w.definition.map Definition.spelling

/-! ## The OCR window (`gui/ocr_window.rs`) -/

/-- Screen rectangle (egui `Rect`), with rational coordinates; `bottom` is
the maximal y coordinate. -/
structure Rect where
  left : ℚ
  top : ℚ
  right : ℚ
  bottom : ℚ
deriving DecidableEq

/-- Horizontal coordinate of a rectangle's center. -/
def Rect.centerX (r : Rect) : ℚ := (r.left + r.right) / 2

/-- Vertical coordinate of a rectangle's center. -/
def Rect.centerY (r : Rect) : ℚ := (r.top + r.bottom) / 2

/-- Squared Euclidean distance between two rectangles' centers.  The source
compares `f32` center distances with `total_cmp`; over the rationals,
comparing squared distances induces the same order since the square root is
monotone on nonnegative numbers. -/
def distSq (a b : Rect) : ℚ :=
  (a.centerX - b.centerX) ^ 2 + (a.centerY - b.centerY) ^ 2

/-- Indexing `state.words[i][j]`; out-of-range indexing (a panic in the
source) yields an inert default word, and every theorem below carries the
in-bounds hypotheses making the default unreachable. -/
def wordAt (ws : List (List Word)) (c : Nat × Nat) : Word :=
  (ws.getD c.1 []).getD c.2 ⟨[], none⟩

/-- Valid position of the word grid: paragraph index within the grid and
word index within that paragraph. -/
def inBounds (ws : List (List Word)) (c : Nat × Nat) : Prop :=
  c.1 < ws.length ∧ c.2 < (ws.getD c.1 []).length

/-- Strict row-major order on grid positions. -/
def rmLT (c p : Nat × Nat) : Prop :=
  c.1 < p.1 ∨ (c.1 = p.1 ∧ c.2 < p.2)

/-- Reflexive row-major order on grid positions. -/
def rmLE (c p : Nat × Nat) : Prop :=
  c.1 < p.1 ∨ (c.1 = p.1 ∧ c.2 ≤ p.2)

/-- `ReadyState` of `gui/ocr_window.rs`: the word grid, the rectangle map
(`HashMap` modelled as an association list), the current selection and the
scroll request flag.  The `input_state` and `add_to_deck_job` handles are
external-IO state and are not part of the embedding. -/
structure ReadyState where
  words : List (List Word)
  word_rects : List ((Nat × Nat) × Rect)
  selected_word : Nat × Nat
  scroll_to_current_word_requested : Bool
deriving DecidableEq

/-- `ReadyState::selected_word()`: the word the selection points at. -/
def ReadyState.selectedWord (st : ReadyState) : Word :=
  wordAt st.words st.selected_word

/-- The add-to-deck arm of `OcrWindow::handle_input`: on the press of the
add-to-deck key the selected word is cloned and handed to
`services.srs.add_to_deck` with no check of its definition; the value is
the spelling passed on to the remote call, `none` the panic inside
`add_to_deck`. -/
def handle_add_to_deck (st : ReadyState) : Option String :=
  add_to_deck_spelling st.selectedWord

/-- Claim C10: `add_to_deck` on a word with no definition panics (the
missing-definition guard is an `expect`, modelled by `none`), and the UI's
add-to-deck input arm passes the selected word through without re-checking
its definition, so a definition-less selected word reaches the panic. -/
theorem C10_add_to_deck_panics_on_no_definition (w : Word)
    (hw : w.definition = none) :
    add_to_deck_spelling w = none ∧
    ∀ st : ReadyState, st.selectedWord = w → handle_add_to_deck st = none := by
  constructor
  · simp [add_to_deck_spelling, hw]
  · intro st hst
    simp [handle_add_to_deck, hst, add_to_deck_spelling, hw]

/-- Witness for claim C10 at a concrete definition-less word selected in a
concrete Ready state. -/
theorem C10_witness :
    handle_add_to_deck ⟨[[⟨[], none⟩]], [], (0, 0), false⟩ = none :=
  (C10_add_to_deck_panics_on_no_definition ⟨[], none⟩ rfl).2
    ⟨[[⟨[], none⟩]], [], (0, 0), false⟩ rfl

/-! ## Horizontal navigation (`move_h` in `OcrWindow::handle_input`) -/

/-- `checked_add` of `OcrWindow::handle_input`: adds `delta` to `n` when the
result stays inside `0..max_exclusive` and reports whether it overflowed
(the Rust `i32` casts are modelled over unbounded integers). -/
def checked_add (n : Nat) (delta : Int) (maxExclusive : Nat) : Nat × Bool :=
  if 0 ≤ (n : Int) + delta ∧ (n : Int) + delta < (maxExclusive : Int) then
    (((n : Int) + delta).toNat, false)
  else (n, true)

/-- Loop of the `move_h` closure in `OcrWindow::handle_input`: step the word
index by `delta`; on overflow hop to the previous paragraph's last word or
the next paragraph's first word, stopping (selection unchanged) at the grid's
boundary; stop at the first cursor whose word satisfies the validity test.
The Rust loop is unbounded; `fuel` bounds the recursion here, and fuel
exhaustion returns the unchanged selection (a non-terminating run of the
source loop never updates the selection either). -/
def move_h_go (ws : List (List Word)) (valid : Word → Bool) (delta : Int) :
    Nat → (Nat × Nat) → (Nat × Nat) → Nat × Nat
  | 0, sel, _ => sel
  | fuel + 1, sel, c =>
    let step := checked_add c.2 delta (ws.getD c.1 []).length
    let overflowed := step.2
    let c1 : Nat × Nat := (c.1, step.1)
    if overflowed ∧ delta < 0 then
      if c1.1 = 0 then sel
      else
        let c2 : Nat × Nat :=
          (c1.1 - (-delta).toNat, (ws.getD (c1.1 - (-delta).toNat) []).length - 1)
        if valid (wordAt ws c2) then c2 else move_h_go ws valid delta fuel sel c2
    else if overflowed ∧ 0 < delta then
      if c1.1 = ws.length - 1 then sel
      else
        let c2 : Nat × Nat := (min (ws.length - 1) (c1.1 + 1), 0)
        if valid (wordAt ws c2) then c2 else move_h_go ws valid delta fuel sel c2
    else
      if valid (wordAt ws c1) then c1 else move_h_go ws valid delta fuel sel c1

/-- The `move_h` closure, starting the loop at the current selection.  The
fuel exceeds the flat size of the grid, which bounds the iteration count of
every run with the `±1` deltas used by the callers. -/
def move_h (ws : List (List Word)) (valid : Word → Bool) (delta : Int)
    (sel : Nat × Nat) : Nat × Nat :=
  move_h_go ws valid delta ((ws.map List.length).sum + 1) sel sel

lemma getD_length_pos {ws : List (List Word)} (hne : ∀ p ∈ ws, p ≠ [])
    {i : Nat} (hi : i < ws.length) : 0 < (ws.getD i []).length := by
  rw [List.getD_eq_getElem ws [] hi]
  exact List.length_pos.mpr (hne _ (List.getElem_mem hi))

lemma checked_add_one_lt {n len : Nat} (h : n + 1 < len) :
    checked_add n 1 len = (n + 1, false) := by
  rw [checked_add, if_pos (by constructor <;> omega)]
  simp only [Prod.mk.injEq, and_true]
  omega

lemma checked_add_one_ge {n len : Nat} (h : ¬(n + 1 < len)) :
    checked_add n 1 len = (n, true) := by
  rw [checked_add, if_neg]
  rintro ⟨_, h2⟩
  omega

lemma move_h_go_succ_no_ov (ws : List (List Word)) (valid : Word → Bool)
    (n : Nat) (sel c : Nat × Nat) (h : c.2 + 1 < (ws.getD c.1 []).length) :
    move_h_go ws valid 1 (n + 1) sel c =
      if valid (wordAt ws (c.1, c.2 + 1)) then (c.1, c.2 + 1)
      else move_h_go ws valid 1 n sel (c.1, c.2 + 1) := by
  simp only [move_h_go, checked_add_one_lt h]
  norm_num

lemma move_h_go_succ_ov (ws : List (List Word)) (valid : Word → Bool)
    (n : Nat) (sel c : Nat × Nat) (h : ¬(c.2 + 1 < (ws.getD c.1 []).length)) :
    move_h_go ws valid 1 (n + 1) sel c =
      if c.1 = ws.length - 1 then sel
      else
        if valid (wordAt ws (min (ws.length - 1) (c.1 + 1), 0)) then
          (min (ws.length - 1) (c.1 + 1), 0)
        else move_h_go ws valid 1 n sel (min (ws.length - 1) (c.1 + 1), 0) := by
  simp only [move_h_go, checked_add_one_ge h]
  norm_num

lemma move_h_go_inBounds (ws : List (List Word)) (valid : Word → Bool)
    (hne : ∀ p ∈ ws, p ≠ []) :
    ∀ (fuel : Nat) (sel c : Nat × Nat), inBounds ws sel → c.1 < ws.length →
      inBounds ws (move_h_go ws valid 1 fuel sel c) := by
  intro fuel
  induction fuel with
  | zero => intro sel c hsel _; simpa [move_h_go] using hsel
  | succ n ih =>
    intro sel c hsel hc
    by_cases hov : c.2 + 1 < (ws.getD c.1 []).length
    · rw [move_h_go_succ_no_ov ws valid n sel c hov]
      by_cases hval : valid (wordAt ws (c.1, c.2 + 1))
      · rw [if_pos hval]
        exact ⟨hc, hov⟩
      · rw [if_neg hval]
        exact ih sel _ hsel hc
    · rw [move_h_go_succ_ov ws valid n sel c hov]
      by_cases hlast : c.1 = ws.length - 1
      · rw [if_pos hlast]; exact hsel
      · rw [if_neg hlast]
        have hi' : min (ws.length - 1) (c.1 + 1) < ws.length := by
          have := hsel.1; omega
        by_cases hval : valid (wordAt ws (min (ws.length - 1) (c.1 + 1), 0))
        · rw [if_pos hval]
          exact ⟨hi', getD_length_pos hne hi'⟩
        · rw [if_neg hval]
          exact ih sel _ hsel hi'

lemma rmLT_step_right {i j : Nat} {p : Nat × Nat} (h : rmLT (i, j + 1) p) :
    rmLT (i, j) p := by
  rcases h with h | ⟨h1, h2⟩
  · exact Or.inl h
  · exact Or.inr ⟨h1, Nat.lt_of_succ_lt h2⟩

lemma rmLT_step_down {i : Nat} {j : Nat} {p : Nat × Nat} (h : rmLT (i + 1, 0) p) :
    rmLT (i, j) p := by
  rcases h with h | ⟨h1, _⟩
  · exact Or.inl (Nat.lt_of_succ_lt h)
  · exact Or.inl (by omega)

lemma move_h_go_stationary (ws : List (List Word)) (valid : Word → Bool)
    (hne : ∀ p ∈ ws, p ≠ []) :
    ∀ (fuel : Nat) (sel c : Nat × Nat), inBounds ws c →
      (∀ p, inBounds ws p → rmLT c p → valid (wordAt ws p) = false) →
      move_h_go ws valid 1 fuel sel c = sel := by
  intro fuel
  induction fuel with
  | zero => intro sel c _ _; rfl
  | succ n ih =>
    intro sel c hc hafter
    by_cases hov : c.2 + 1 < (ws.getD c.1 []).length
    · rw [move_h_go_succ_no_ov ws valid n sel c hov]
      have hc1 : inBounds ws (c.1, c.2 + 1) := ⟨hc.1, hov⟩
      have hlt : rmLT c (c.1, c.2 + 1) := Or.inr ⟨rfl, Nat.lt_succ_self _⟩
      rw [if_neg (by simp [hafter _ hc1 hlt])]
      refine ih sel _ hc1 ?_
      intro p hp hplt
      exact hafter p hp (show rmLT (c.1, c.2) p from rmLT_step_right hplt)
    · rw [move_h_go_succ_ov ws valid n sel c hov]
      by_cases hlast : c.1 = ws.length - 1
      · rw [if_pos hlast]
      · rw [if_neg hlast]
        have hmin : min (ws.length - 1) (c.1 + 1) = c.1 + 1 := by
          have := hc.1; omega
        rw [hmin]
        have hi' : c.1 + 1 < ws.length := by have := hc.1; omega
        have hc2 : inBounds ws (c.1 + 1, 0) := ⟨hi', getD_length_pos hne hi'⟩
        have hlt : rmLT c (c.1 + 1, 0) := Or.inl (Nat.lt_succ_self _)
        rw [if_neg (by simp [hafter _ hc2 hlt])]
        refine ih sel _ hc2 ?_
        intro p hp hplt
        exact hafter p hp (rmLT_step_down hplt)

/-- Claim C5: starting from any valid selection in a grid of non-empty
paragraphs, every sequence of `move_h(+1)` calls keeps the selection inside
the grid's bounds, and a `move_h(+1)` issued when no valid word lies
strictly after the selection in row-major order (in particular, from the
last valid word) leaves the selection unchanged. -/
theorem C5_horizontal_move_bounded (ws : List (List Word)) (valid : Word → Bool)
    (sel : Nat × Nat) (hne : ∀ p ∈ ws, p ≠ []) (hsel : inBounds ws sel) :
    (∀ n : Nat, inBounds ws ((fun s => move_h ws valid 1 s)^[n] sel)) ∧
    ((∀ p, inBounds ws p → rmLT sel p → valid (wordAt ws p) = false) →
      move_h ws valid 1 sel = sel) := by
  constructor
  · intro n
    induction n with
    | zero => simpa using hsel
    | succ k ihk =>
      rw [Function.iterate_succ_apply']
      exact move_h_go_inBounds ws valid hne _ _ _ ihk ihk.1
  · intro hafter
    exact move_h_go_stationary ws valid hne _ sel sel hsel hafter

/-- Witness for claim C5 at a concrete one-word grid. -/
theorem C5_witness :
    inBounds [[(⟨[], some ⟨"a", "a", none, [], none⟩⟩ : Word)]]
      ((fun s => move_h [[(⟨[], some ⟨"a", "a", none, [], none⟩⟩ : Word)]]
        (fun w => w.definition.isSome) 1 s)^[1] (0, 0)) ∧
    move_h [[(⟨[], some ⟨"a", "a", none, [], none⟩⟩ : Word)]]
      (fun w => w.definition.isSome) 1 (0, 0) = (0, 0) := by
  have h := C5_horizontal_move_bounded
    [[(⟨[], some ⟨"a", "a", none, [], none⟩⟩ : Word)]]
    (fun w => w.definition.isSome) (0, 0)
    (by intro p hp; simp at hp; subst hp; simp)
    (by constructor <;> simp [inBounds])
  refine ⟨h.1 1, h.2 ?_⟩
  intro p hp hlt
  exfalso
  obtain ⟨a, b⟩ := p
  obtain ⟨h1, h2⟩ := hp
  simp only [List.length_singleton] at h1
  have ha : a = 0 := by omega
  subst ha
  simp only [List.getD_cons_zero, List.length_singleton] at h2
  rcases hlt with hlt | ⟨_, hlt⟩ <;> omega

/-! ## Vertical navigation (`move_v` in `OcrWindow::handle_input`) -/

/-- First minimum of a list under a key function, as computed by Rust's
`Iterator::min_by` (which keeps the first of equally-minimal elements). -/
def min_by_first {α : Type} (f : α → ℚ) : List α → Option α
  | [] => none
  | x :: xs =>
    match min_by_first f xs with
    | none => some x
    | some y => if f x ≤ f y then some x else some y

lemma min_by_first_eq_none_iff {α : Type} (f : α → ℚ) (l : List α) :
    min_by_first f l = none ↔ l = [] := by
  cases l with
  | nil => simp [min_by_first]
  | cons x xs =>
    simp only [min_by_first]
    cases h' : min_by_first f xs with
    | none => simp
    | some y => by_cases hle : f x ≤ f y <;> simp [hle]

lemma min_by_first_spec {α : Type} (f : α → ℚ) :
    ∀ {l : List α} {x : α}, min_by_first f l = some x →
      x ∈ l ∧ ∀ y ∈ l, f x ≤ f y := by
  intro l
  induction l with
  | nil => intro x h; simp [min_by_first] at h
  | cons a t ih =>
    intro x h
    simp only [min_by_first] at h
    cases h' : min_by_first f t with
    | none =>
      rw [h'] at h
      have h2 : some a = some x := h
      cases h2
      have ht : t = [] := (min_by_first_eq_none_iff f t).mp h'
      subst ht
      exact ⟨by simp, by simp⟩
    | some y =>
      rw [h'] at h
      have h2 : (if f a ≤ f y then some a else some y) = some x := h
      obtain ⟨hy_mem, hy_min⟩ := ih h'
      by_cases hle : f a ≤ f y
      · rw [if_pos hle] at h2
        cases h2
        refine ⟨by simp, ?_⟩
        intro z hz
        rcases List.mem_cons.mp hz with rfl | hz'
        · exact le_refl _
        · exact le_trans hle (hy_min z hz')
      · rw [if_neg hle] at h2
        cases h2
        refine ⟨List.mem_cons_of_mem _ hy_mem, ?_⟩
        intro z hz
        rcases List.mem_cons.mp hz with rfl | hz'
        · exact le_of_lt (lt_of_not_le hle)
        · exact hy_min z hz'

/-- Candidate list of the `move_v` closure: entries of the rectangle map
whose word holds a definition and whose rectangle's bottom edge is strictly
above (direction negative) or strictly below (otherwise) the current
rectangle's bottom edge. -/
def v_candidates (ws : List (List Word)) (rects : List ((Nat × Nat) × Rect))
    (current : Rect) (direction : Int) : List ((Nat × Nat) × Rect) :=
  (rects.filter fun p => (wordAt ws p.1).definition.isSome).filter fun p =>
    if direction < 0 then decide (p.2.bottom < current.bottom)
    else decide (current.bottom < p.2.bottom)

/-- The `move_v` closure of `OcrWindow::handle_input`: looks up the current
selection's rectangle (`none` models the `unwrap` panic when it is absent),
filters the rectangle map down to the candidates, and selects the candidate
whose center is nearest to the current center; with no candidate the
selection is unchanged. -/
def move_v (ws : List (List Word)) (rects : List ((Nat × Nat) × Rect))
    (sel : Nat × Nat) (direction : Int) : Option (Nat × Nat) :=
  (rects.lookup sel).map fun current =>
    match min_by_first (fun p => distSq p.2 current)
        (v_candidates ws rects current direction) with
    | some p => p.1
    | none => sel

/-- Claim C6: with the selection's rectangle present in the map, `move_v`
selects, among the definition-bearing words whose rectangle's bottom edge is
strictly on the requested side of the current bottom edge, one at minimal
center distance from the current rectangle, and leaves the selection
unchanged when no such candidate exists (stated for both directions via the
`direction` parameter; distances are compared as squared distances, which
orders rationals identically to the Euclidean distance). -/
theorem C6_vertical_nearest_neighbour (ws : List (List Word))
    (rects : List ((Nat × Nat) × Rect)) (sel : Nat × Nat) (direction : Int)
    (cur : Rect) (hcur : rects.lookup sel = some cur) :
    (∀ p, p ∈ v_candidates ws rects cur direction ↔
      p ∈ rects ∧ (wordAt ws p.1).definition.isSome ∧
        (if direction < 0 then p.2.bottom < cur.bottom
         else cur.bottom < p.2.bottom)) ∧
    (v_candidates ws rects cur direction = [] →
      move_v ws rects sel direction = some sel) ∧
    (v_candidates ws rects cur direction ≠ [] →
      ∃ p ∈ v_candidates ws rects cur direction,
        move_v ws rects sel direction = some p.1 ∧
        ∀ q ∈ v_candidates ws rects cur direction,
          distSq p.2 cur ≤ distSq q.2 cur) := by
  refine ⟨?_, ?_, ?_⟩
  · intro p
    by_cases hdir : direction < 0 <;>
      simp [v_candidates, List.mem_filter, hdir, and_assoc, and_comm]
  · intro hempty
    simp [move_v, hcur, hempty, min_by_first]
  · intro hne
    cases hmin : min_by_first (fun p => distSq p.2 cur)
        (v_candidates ws rects cur direction) with
    | none => exact absurd ((min_by_first_eq_none_iff _ _).mp hmin) hne
    | some p =>
      obtain ⟨hmem, hle⟩ := min_by_first_spec _ hmin
      exact ⟨p, hmem, by simp [move_v, hcur, hmin], hle⟩

/-- Witness for claim C6 at a concrete two-word grid with one candidate
above the selection. -/
theorem C6_witness :
    (∀ p, p ∈ v_candidates
        [[(⟨[], some ⟨"a", "a", none, [], none⟩⟩ : Word)],
         [(⟨[], some ⟨"b", "b", none, [], none⟩⟩ : Word)]]
        [((0, 0), ⟨0, 0, 1, 1⟩), ((1, 0), ⟨0, 2, 1, 3⟩)]
        (⟨0, 2, 1, 3⟩ : Rect) (-1) ↔
      p ∈ [((0, 0), (⟨0, 0, 1, 1⟩ : Rect)), ((1, 0), ⟨0, 2, 1, 3⟩)] ∧
        (wordAt [[(⟨[], some ⟨"a", "a", none, [], none⟩⟩ : Word)],
         [(⟨[], some ⟨"b", "b", none, [], none⟩⟩ : Word)]] p.1).definition.isSome ∧
        (if (-1 : Int) < 0 then p.2.bottom < (3 : ℚ) else (3 : ℚ) < p.2.bottom)) ∧
    (v_candidates
        [[(⟨[], some ⟨"a", "a", none, [], none⟩⟩ : Word)],
         [(⟨[], some ⟨"b", "b", none, [], none⟩⟩ : Word)]]
        [((0, 0), ⟨0, 0, 1, 1⟩), ((1, 0), ⟨0, 2, 1, 3⟩)]
        (⟨0, 2, 1, 3⟩ : Rect) (-1) = [] →
      move_v [[(⟨[], some ⟨"a", "a", none, [], none⟩⟩ : Word)],
         [(⟨[], some ⟨"b", "b", none, [], none⟩⟩ : Word)]]
        [((0, 0), ⟨0, 0, 1, 1⟩), ((1, 0), ⟨0, 2, 1, 3⟩)] (1, 0) (-1) =
        some (1, 0)) ∧
    (v_candidates
        [[(⟨[], some ⟨"a", "a", none, [], none⟩⟩ : Word)],
         [(⟨[], some ⟨"b", "b", none, [], none⟩⟩ : Word)]]
        [((0, 0), ⟨0, 0, 1, 1⟩), ((1, 0), ⟨0, 2, 1, 3⟩)]
        (⟨0, 2, 1, 3⟩ : Rect) (-1) ≠ [] →
      ∃ p ∈ v_candidates
        [[(⟨[], some ⟨"a", "a", none, [], none⟩⟩ : Word)],
         [(⟨[], some ⟨"b", "b", none, [], none⟩⟩ : Word)]]
        [((0, 0), ⟨0, 0, 1, 1⟩), ((1, 0), ⟨0, 2, 1, 3⟩)]
        (⟨0, 2, 1, 3⟩ : Rect) (-1),
        move_v [[(⟨[], some ⟨"a", "a", none, [], none⟩⟩ : Word)],
         [(⟨[], some ⟨"b", "b", none, [], none⟩⟩ : Word)]]
        [((0, 0), ⟨0, 0, 1, 1⟩), ((1, 0), ⟨0, 2, 1, 3⟩)] (1, 0) (-1) =
          some p.1 ∧
        ∀ q ∈ v_candidates
          [[(⟨[], some ⟨"a", "a", none, [], none⟩⟩ : Word)],
           [(⟨[], some ⟨"b", "b", none, [], none⟩⟩ : Word)]]
          [((0, 0), ⟨0, 0, 1, 1⟩), ((1, 0), ⟨0, 2, 1, 3⟩)]
          (⟨0, 2, 1, 3⟩ : Rect) (-1),
          distSq p.2 (⟨0, 2, 1, 3⟩ : Rect) ≤ distSq q.2 ⟨0, 2, 1, 3⟩) :=
  C6_vertical_nearest_neighbour
    [[(⟨[], some ⟨"a", "a", none, [], none⟩⟩ : Word)],
     [(⟨[], some ⟨"b", "b", none, [], none⟩⟩ : Word)]]
    [((0, 0), ⟨0, 0, 1, 1⟩), ((1, 0), ⟨0, 2, 1, 3⟩)] (1, 0) (-1)
    ⟨0, 2, 1, 3⟩ (by decide)

/-! ## Initial selection on SRS completion (`OcrWindow::manage_loading`) -/

/-- Selection loop of the `LoadingSrs` success arm: scan paragraphs in
order and return the position of the first word with a definition, tracking
the paragraph index from `i`. -/
def initial_selection_go : Nat → List (List Word) → Option (Nat × Nat)
  | _, [] => none
  | i, par :: rest =>
    match par.findIdx? (fun w => w.definition.isSome) with
    | some j => some (i, j)
    | none => initial_selection_go (i + 1) rest

/-- Initial selection computed on SRS completion: the first `(i, j)` in
row-major order whose word has a definition, defaulting to `(0, 0)`. -/
def initial_selection (ws : List (List Word)) : Nat × Nat :=
  (initial_selection_go 0 ws).getD (0, 0)

/-- Pipeline states around the SRS stage (`State` in `gui/ocr_window.rs`,
restricted to the two states the `LoadingSrs` arm connects). -/
inductive LoadState where
  | loadingSrs (words : List (List Word))
  | ready (words : List (List Word)) (selected_word : Nat × Nat)
deriving DecidableEq

/-- The `LoadingSrs` arm of `OcrWindow::manage_loading`: a pending job
(`None` from `try_wait`) leaves the state unchanged, a job error is
surfaced (ending the session), and success selects the initial word and
enters `Ready`. -/
def manage_loading_srs (words : List (List Word)) :
    Option (Except String Unit) → Except String LoadState
  | none => .ok (.loadingSrs words)
  | some (.error e) => .error e
  | some (.ok _) => .ok (.ready words (initial_selection words))

lemma wordAt_cons_succ (par : List Word) (rest : List (List Word)) (i j : Nat) :
    wordAt (par :: rest) (i + 1, j) = wordAt rest (i, j) := by
  simp [wordAt]

lemma inBounds_cons_succ (par : List Word) (rest : List (List Word)) (i j : Nat) :
    inBounds (par :: rest) (i + 1, j) ↔ inBounds rest (i, j) := by
  simp [inBounds]

lemma initial_selection_go_none (ws : List (List Word)) :
    ∀ i, (∀ p ∈ ws, ∀ w ∈ p, w.definition = none) →
      initial_selection_go i ws = none := by
  induction ws with
  | nil => intro i _; rfl
  | cons par rest ih =>
    intro i h
    have hf : par.findIdx? (fun w => w.definition.isSome) = none := by
      rw [List.findIdx?_eq_none_iff]
      intro w hw
      simp [h par (by simp) w hw]
    simp only [initial_selection_go, hf]
    exact ih (i + 1) (fun p hp w hw => h p (List.mem_cons_of_mem _ hp) w hw)

lemma initial_selection_go_spec (ws : List (List Word)) :
    ∀ (i : Nat) (q : Nat × Nat), inBounds ws q →
      (wordAt ws q).definition.isSome →
      ∃ j k, initial_selection_go i ws = some (i + j, k) ∧
        inBounds ws (j, k) ∧ (wordAt ws (j, k)).definition.isSome ∧
        rmLE (j, k) q := by
  induction ws with
  | nil =>
    intro i q hq _
    exact absurd hq.1 (by simp)
  | cons par rest ih =>
    intro i q hq hdef
    cases hf : par.findIdx? (fun w => w.definition.isSome) with
    | some m =>
      obtain ⟨hmlt, hmfind⟩ := List.findIdx?_eq_some_iff_findIdx_eq.mp hf
      refine ⟨0, m, ?_, ?_, ?_, ?_⟩
      · simp [initial_selection_go, hf]
      · exact ⟨by simp, by simpa [List.getD_cons_zero] using hmlt⟩
      · have := @List.findIdx_getElem _ (fun w => w.definition.isSome) par
          (hmfind ▸ hmlt)
        simp only [wordAt, List.getD_cons_zero]
        rw [List.getD_eq_getElem par _ (by simpa using hmlt)]
        simpa [hmfind] using this
      · obtain ⟨a, b⟩ := q
        cases a with
        | zero =>
          refine Or.inr ⟨rfl, ?_⟩
          by_contra hab
          have hblt : b < m := by omega
          have := @List.not_of_lt_findIdx _ (fun w => w.definition.isSome) par
            b (hmfind ▸ hblt)
          have hb : b < par.length := by simpa [inBounds] using hq.2
          rw [show wordAt (par :: rest) (0, b) = par[b] from by
            simp only [wordAt, List.getD_cons_zero]
            exact List.getD_eq_getElem par _ hb] at hdef
          simp [hdef] at this
        | succ a' => exact Or.inl (Nat.succ_pos _)
    | none =>
      obtain ⟨a, b⟩ := q
      cases a with
      | zero =>
        exfalso
        have hb : b < par.length := by simpa [inBounds] using hq.2
        have := (List.findIdx?_eq_none_iff.mp hf) par[b] (List.getElem_mem hb)
        rw [show wordAt (par :: rest) (0, b) = par[b] from by
          simp only [wordAt, List.getD_cons_zero]
          exact List.getD_eq_getElem par _ hb] at hdef
        simp [hdef] at this
      | succ a' =>
        have hq' : inBounds rest (a', b) := (inBounds_cons_succ par rest a' b).mp hq
        have hdef' : (wordAt rest (a', b)).definition.isSome := by
          rwa [wordAt_cons_succ] at hdef
        obtain ⟨j, k, hgo, hbk, hdk, hle⟩ := ih (i + 1) (a', b) hq' hdef'
        refine ⟨j + 1, k, ?_, ?_, ?_, ?_⟩
        · simp only [initial_selection_go, hf]
          rw [hgo]
          simp only [Option.some.injEq, Prod.mk.injEq]
          exact ⟨by omega, trivial⟩
        · exact (inBounds_cons_succ par rest j k).mpr hbk
        · rwa [wordAt_cons_succ]
        · rcases hle with h | ⟨h1, h2⟩
          · exact Or.inl (by omega)
          · exact Or.inr ⟨by omega, h2⟩

/-- Claim C7: on successful completion of the SRS stage the pipeline enters
`Ready` with the initial selection; the initial selection is `(0, 0)` when
no word has a definition, and otherwise it is an in-bounds,
definition-bearing position that precedes (row-major) every
definition-bearing position of the grid, i.e. the first such position. -/
theorem C7_initial_selection_first_defined (ws : List (List Word)) :
    manage_loading_srs ws (some (.ok ())) =
      .ok (.ready ws (initial_selection ws)) ∧
    ((∀ p ∈ ws, ∀ w ∈ p, w.definition = none) → initial_selection ws = (0, 0)) ∧
    (∀ q, inBounds ws q → (wordAt ws q).definition.isSome →
      inBounds ws (initial_selection ws) ∧
      (wordAt ws (initial_selection ws)).definition.isSome ∧
      rmLE (initial_selection ws) q) := by
  refine ⟨rfl, ?_, ?_⟩
  · intro h
    simp [initial_selection, initial_selection_go_none ws 0 h]
  · intro q hq hdef
    obtain ⟨j, k, hgo, hb, hd, hle⟩ := initial_selection_go_spec ws 0 q hq hdef
    have : initial_selection ws = (j, k) := by
      simp [initial_selection, hgo]
    rw [this]
    exact ⟨hb, hd, hle⟩

/-- Witness for claim C7 at a concrete grid whose first defined word sits at
position (0, 1). -/
theorem C7_witness :
    inBounds [[(⟨[], none⟩ : Word), ⟨[], some ⟨"a", "a", none, [], none⟩⟩]]
      (initial_selection
        [[(⟨[], none⟩ : Word), ⟨[], some ⟨"a", "a", none, [], none⟩⟩]]) ∧
    (wordAt [[(⟨[], none⟩ : Word), ⟨[], some ⟨"a", "a", none, [], none⟩⟩]]
      (initial_selection
        [[(⟨[], none⟩ : Word), ⟨[], some ⟨"a", "a", none, [], none⟩⟩]])).definition.isSome ∧
    rmLE (initial_selection
        [[(⟨[], none⟩ : Word), ⟨[], some ⟨"a", "a", none, [], none⟩⟩]]) (0, 1) :=
  (C7_initial_selection_first_defined
    [[(⟨[], none⟩ : Word), ⟨[], some ⟨"a", "a", none, [], none⟩⟩]]).2.2
    (0, 1) (by exact ⟨by simp, by simp⟩) (by rfl)

/-! ## Key retrigger logic (`gui/ocr_window/input_state.rs`) -/

/-- `Key` of `input_state.rs`: the press timestamp when held, whether the
press edge has been consumed, and the last retrigger timestamp.  `Instant`s
are modelled as natural-number timestamps in milliseconds;
`x.elapsed() > d` at current time `now` becomes `x + d < now`. -/
structure Key where
  is_pressed : Option Nat
  was_consumed : Bool
  last_retriggered : Nat
deriving DecidableEq

/-- `Key::change_state` observed at time `now`: releases clear the press
timestamp; a press edge records `now` as the press timestamp and resets the
consumed flag. -/
def Key.change_state (k : Key) (pressed : Bool) (now : Nat) : Key :=
  let k1 := if ¬pressed ∧ k.is_pressed.isSome then { k with is_pressed := none } else k
  if pressed ∧ k1.is_pressed = none then
    { k1 with is_pressed := some now, was_consumed := false }
  else k1

/-- `Key::was_pressed_with_retrigger` observed at time `now`: fires once on
the unconsumed press edge; thereafter fires when more than 300ms have
elapsed since the press and more than 50ms since the last retrigger,
recording `now` as the new retrigger timestamp. -/
def Key.was_pressed_with_retrigger (k : Key) (now : Nat) : Bool × Key :=
  match k.is_pressed with
  | some pressed_timestamp =>
    if ¬k.was_consumed then (true, { k with was_consumed := true })
    else if pressed_timestamp + 300 < now ∧ k.last_retriggered + 50 < now then
      (true, { k with last_retriggered := now })
    else (false, k)
  | none => (false, k)

/-- Claim C8: a fresh press fires immediately; once consumed, no further
fire happens up to 300ms past the press time; a consumed key retriggers
exactly when both the 300ms initial delay since the press and the 50ms gap
since the last retrigger have strictly elapsed, and firing records the
current time (so consecutive retriggers are more than 50ms apart); and a
release followed by a new press restarts the schedule from the new press
time with the press edge unconsumed. -/
theorem C8_retrigger_schedule (k : Key) (t now : Nat) :
    (k.is_pressed = none →
      ((k.change_state true t).was_pressed_with_retrigger now).1 = true ∧
      (k.change_state true t).is_pressed = some t) ∧
    (∀ tp, k.is_pressed = some tp → k.was_consumed = true → now ≤ tp + 300 →
      (k.was_pressed_with_retrigger now).1 = false) ∧
    (∀ tp, k.is_pressed = some tp → k.was_consumed = true →
      ((k.was_pressed_with_retrigger now).1 = true ↔
        tp + 300 < now ∧ k.last_retriggered + 50 < now) ∧
      ((k.was_pressed_with_retrigger now).1 = true →
        (k.was_pressed_with_retrigger now).2.last_retriggered = now)) ∧
    (((k.change_state false t).change_state true now).is_pressed = some now ∧
      ((k.change_state false t).change_state true now).was_consumed = false) := by
  refine ⟨?_, ?_, ?_, ?_⟩
  · intro h
    simp [Key.change_state, Key.was_pressed_with_retrigger, h]
  · intro tp hp hc hle
    rw [show (k.was_pressed_with_retrigger now) =
        (if tp + 300 < now ∧ k.last_retriggered + 50 < now then
          (true, { k with last_retriggered := now }) else (false, k)) from by
      simp [Key.was_pressed_with_retrigger, hp, hc]]
    rw [if_neg (by omega)]
  · intro tp hp hc
    constructor
    · rw [show (k.was_pressed_with_retrigger now) =
          (if tp + 300 < now ∧ k.last_retriggered + 50 < now then
            (true, { k with last_retriggered := now }) else (false, k)) from by
        simp [Key.was_pressed_with_retrigger, hp, hc]]
      by_cases hcond : tp + 300 < now ∧ k.last_retriggered + 50 < now
      · simp [hcond]
      · simp [if_neg hcond, hcond]
    · intro hfire
      rw [show (k.was_pressed_with_retrigger now) =
          (if tp + 300 < now ∧ k.last_retriggered + 50 < now then
            (true, { k with last_retriggered := now }) else (false, k)) from by
        simp [Key.was_pressed_with_retrigger, hp, hc]] at hfire ⊢
      by_cases hcond : tp + 300 < now ∧ k.last_retriggered + 50 < now
      · simp [hcond]
      · simp [hcond] at hfire
  · cases hk : k.is_pressed <;>
      simp [Key.change_state, hk]

/-- Witness for claim C8: a fresh press at t=0 fires at once; at t=250 (past
consumption, within the 300ms delay) nothing fires; at t=400 the retrigger
fires. -/
theorem C8_witness :
    (((⟨none, false, 0⟩ : Key).change_state true 0).was_pressed_with_retrigger 0).1
      = true ∧
    ((⟨some 0, true, 0⟩ : Key).was_pressed_with_retrigger 250).1 = false ∧
    ((⟨some 0, true, 0⟩ : Key).was_pressed_with_retrigger 400).1 = true :=
  ⟨((C8_retrigger_schedule ⟨none, false, 0⟩ 0 0).1 rfl).1,
   (C8_retrigger_schedule ⟨some 0, true, 0⟩ 0 250).2.1 0 rfl rfl (by omega),
   (((C8_retrigger_schedule ⟨some 0, true, 0⟩ 0 400).2.2.1 0 rfl rfl).1).mpr
     (by decide)⟩

end Deckocr.App
